import Mathlib

/-!
Shallow embedding of the Fuzzy-to-Exact Symbol/Text Resolution Engine
(`SymbolResolver`) of the mcp-lspdriver-ts repository.

File content and all strings are modelled as `List Char`; the asynchronous
`readFile` capability is externalized: each operation takes the file content
as an explicit argument.  JavaScript `String.prototype.indexOf(needle, start)`
is modelled by `jsIndexOf` (all call sites in the source use `start` below the
haystack length, where the two agree exactly).  The `while` loops of the
source are translated into structurally recursive functions, with comments
tying each to the loop it embeds.
-/

deriving instance DecidableEq for Except

/-- 0-based exact coordinate, as in `types.ts` (`ExactPosition`). -/
structure ExactPosition where
  line : Int
  character : Nat
deriving DecidableEq, Repr

/-- Fuzzy anchor supplied by the caller, as in `types.ts` (`FuzzyPosition`):
`symbolName`, 1-based `lineHint`, optional 0-based `orderHint`. -/
structure FuzzyPosition where
  symbolName : List Char
  lineHint : Int
  orderHint : Option Nat
deriving DecidableEq, Repr

/-- Span on disk, as in `types.ts` (`DiskRange`). -/
structure DiskRange where
  start : ExactPosition
  stop : ExactPosition
deriving DecidableEq, Repr

/-- The fields of `SymbolResolutionError` (resolver.ts lines 30-41). -/
structure SymbolResolutionError where
  symbolName : List Char
  lineHint : Int
  reason : List Char
deriving DecidableEq, Repr

/-- Scan for the first position at or after `pos` where `needle` occurs,
walking the remaining characters `rest`; the backbone of `jsIndexOf`. -/
def scanMatch (needle : List Char) : List Char → Nat → Option Nat
  | [], pos => if needle.isPrefixOf [] then some pos else none
  | c :: rest, pos =>
    if needle.isPrefixOf (c :: rest) then some pos else scanMatch needle rest (pos + 1)

/-- JavaScript `hay.indexOf(needle, start)` (for `start ≤ hay.length`, which
holds at every call site): the least index `i ≥ start` at which `needle`
occurs in `hay`, or `none`. -/
def jsIndexOf (hay needle : List Char) (start : Nat) : Option Nat :=
  scanMatch needle (hay.drop start) start

/-- The `while` loop of `findSymbolInLine` (resolver.ts lines 152-167).
The source counts `occurrenceCount` up from 0 until it equals `orderHint`;
here `k` is the remaining count `orderHint - occurrenceCount`, decremented
at each non-returning match, so the recursion is structural in `k`. -/
def findFrom (l needle : List Char) : Nat → Nat → Option Nat
  | currentIndex, k =>
    if currentIndex < l.length then
      match jsIndexOf l needle currentIndex with
      | none => none
      | some foundIndex =>
        match k with
        | 0 => some foundIndex
        | k' + 1 => findFrom l needle (foundIndex + 1) k'
    else none

/-- `SymbolResolver.findSymbolInLine` (resolver.ts lines 143-170): the
character offset of the `orderHint`-th occurrence of `symbolName` in `line`,
or `none`; an absent (`undefined`) or empty line yields `none`. -/
def findSymbolInLine (line : Option (List Char)) (symbolName : List Char)
    (orderHint : Nat) : Option Nat :=
  match line with
  | none => none
  | some l => if l.length = 0 then none else findFrom l symbolName 0 orderHint

/-- Splitter for `content.split(/\r?\n/)` (resolver.ts line 82): a separator
is `\n` optionally preceded by `\r`; a lone `\r` is ordinary text.  `acc`
holds the current line, reversed. -/
def splitLinesAux : List Char → List Char → List (List Char)
  | [], acc => [acc.reverse]
  | '\r' :: '\n' :: rest, acc => acc.reverse :: splitLinesAux rest []
  | '\n' :: rest, acc => acc.reverse :: splitLinesAux rest []
  | c :: rest, acc => splitLinesAux rest (c :: acc)

/-- `content.split(/\r?\n/)` (resolver.ts line 82). -/
def splitLines (content : List Char) : List (List Char) :=
  splitLinesAux content []

/-- JavaScript array indexing `lines[i]` with a possibly negative index:
`undefined` (here `none`) when out of range. -/
def lineAt (lines : List (List Char)) (i : Int) : Option (List Char) :=
  if 0 ≤ i then lines.get? i.toNat else none

/-- The fallback `for` loop of `resolvePosition` (resolver.ts lines 99-125):
offsets `offset, offset+1, …` with `remaining` iterations left; at each
offset the line above (guarded by `lineAbove >= 0`) is checked before the
line below (guarded by `lineBelow < lines.length`).  The official entry is
`offset = 1`, `remaining = lineSearchRadius`. -/
def scanWindow (lines : List (List Char)) (symbolName : List Char)
    (orderHint : Nat) (targetLine : Int) : Nat → Nat → Option ExactPosition
  | _, 0 => none
  | offset, remaining + 1 =>
    match (if 0 ≤ targetLine - (offset : Int) then
        findSymbolInLine (lineAt lines (targetLine - (offset : Int))) symbolName orderHint
      else none) with
    | some c => some ⟨targetLine - (offset : Int), c⟩
    | none =>
      match (if targetLine + (offset : Int) < (lines.length : Int) then
          findSymbolInLine (lineAt lines (targetLine + (offset : Int))) symbolName orderHint
        else none) with
      | some c => some ⟨targetLine + (offset : Int), c⟩
      | none => scanWindow lines symbolName orderHint targetLine (offset + 1) remaining

/-- The interpolated failure message of resolver.ts line 131. -/
def resolutionReason (lineCount : Nat) (lineHint : Int) (radius : Nat) : List Char :=
  "Please verify the file content and try again. Searched lines ".data
    ++ (toString (max 1 (lineHint - (radius : Int)))).data
    ++ " to ".data
    ++ (toString (min (lineCount : Int) (lineHint + (radius : Int)))).data
    ++ ".".data

/-- Body of `SymbolResolver.resolvePosition` after the line split
(resolver.ts lines 85-132). -/
def resolveInLines (lines : List (List Char)) (fuzzy : FuzzyPosition)
    (lineSearchRadius : Nat) : Except SymbolResolutionError ExactPosition :=
  match findSymbolInLine (lineAt lines (fuzzy.lineHint - 1)) fuzzy.symbolName
      (fuzzy.orderHint.getD 0) with
  | some c => .ok ⟨fuzzy.lineHint - 1, c⟩
  | none =>
    match scanWindow lines fuzzy.symbolName (fuzzy.orderHint.getD 0)
        (fuzzy.lineHint - 1) 1 lineSearchRadius with
    | some p => .ok p
    | none =>
      .error ⟨fuzzy.symbolName, fuzzy.lineHint,
        resolutionReason lines.length fuzzy.lineHint lineSearchRadius⟩

/-- `SymbolResolver.resolvePosition` (resolver.ts lines 77-133), with the
file content passed in place of the `readFile` call and the configured
`lineSearchRadius` explicit. -/
def resolvePosition (content : List Char) (fuzzy : FuzzyPosition)
    (lineSearchRadius : Nat) : Except SymbolResolutionError ExactPosition :=
  resolveInLines (splitLines content) fuzzy lineSearchRadius

/-- The occurrence-collecting `while` loop of `findExactText`
(resolver.ts lines 185-194), with explicit fuel; since `searchIndex`
strictly increases and the loop requires `searchIndex < content.length`,
`content.length` units of fuel (the official entry) are always enough. -/
def collectAux (content needle : List Char) : Nat → Nat → List Nat
  | _, 0 => []
  | searchIndex, fuel + 1 =>
    if searchIndex < content.length then
      match jsIndexOf content needle searchIndex with
      | none => []
      | some foundIndex => foundIndex :: collectAux content needle (foundIndex + 1) fuel
    else []

/-- All occurrence start offsets found by the scanning loop of
`findExactText`, in increasing order. -/
def collectOccurrences (content needle : List Char) : List Nat :=
  collectAux content needle 0 content.length

/-- The message of resolver.ts lines 197-199. -/
def notFoundMessage (searchText : List Char) : List Char :=
  "Text not found in file: \"".data ++ searchText.take 50
    ++ (if searchText.length > 50 then "...".data else []) ++ "\"".data

/-- The message of resolver.ts lines 203-205. -/
def ambiguousMessage (n : Nat) : List Char :=
  "Text appears ".data ++ (toString n).data
    ++ " times in file. Please provide more context to uniquely identify the location.".data

/-- The character-walking loop of `offsetToPosition` (resolver.ts lines
226-239): consume one character per unit of `off`, bumping `line` and
resetting `character` on `\n`, and stop at `off = 0` or end of content. -/
def offsetToPosAux : List Char → Nat → Int → Nat → ExactPosition
  | _, 0, line, character => ⟨line, character⟩
  | [], _ + 1, line, character => ⟨line, character⟩
  | c :: rest, off + 1, line, character =>
    if c = '\n' then offsetToPosAux rest off (line + 1) 0
    else offsetToPosAux rest off line (character + 1)

/-- `SymbolResolver.offsetToPosition` (resolver.ts lines 221-242). -/
def offsetToPosition (content : List Char) (offset : Nat) : ExactPosition :=
  offsetToPosAux content offset 0 0

/-- `SymbolResolver.findExactText` (resolver.ts lines 181-216), with the
file content passed in place of the `readFile` call; the thrown `Error`s
become `Except.error` carrying the exact message string. -/
def findExactText (content searchText : List Char) :
    Except (List Char) DiskRange :=
  if (collectOccurrences content searchText).length = 0 then
    .error (notFoundMessage searchText)
  else if (collectOccurrences content searchText).length > 1 then
    .error (ambiguousMessage (collectOccurrences content searchText).length)
  else
    .ok ⟨offsetToPosition content ((collectOccurrences content searchText).headD 0),
      offsetToPosition content
        ((collectOccurrences content searchText).headD 0 + searchText.length)⟩

/-! Specification-side notions, written from the words of the spec. -/

/-- Modelled from the spec: positions of every occurrence of `needle` in
the scanned text, overlap permitted — every position of the text (and the
end position) at which `needle` occurs as a prefix of the remainder.
`pos` is the absolute offset of the head of the remaining list. -/
def matchPositions (needle : List Char) : List Char → Nat → List Nat
  | [], pos => if needle.isPrefixOf [] then [pos] else []
  | c :: rest, pos =>
    (if needle.isPrefixOf (c :: rest) then [pos] else [])
      ++ matchPositions needle rest (pos + 1)

/-- Modelled from the spec: the overlap-permitting occurrence offsets of a
symbol in a line (spec §4.1, occurrence search semantics). -/
def occurrenceOffsets (l needle : List Char) : List Nat :=
  matchPositions needle l 0

/-- Modelled from the spec: (line, character) lexicographic order on
positions (spec §3, `DiskRange` invariant). -/
def lexLe (p q : ExactPosition) : Prop :=
  p.line < q.line ∨ (p.line = q.line ∧ p.character ≤ q.character)

/-- Strict (line, character) lexicographic order. -/
def lexLt (p q : ExactPosition) : Prop :=
  p.line < q.line ∨ (p.line = q.line ∧ p.character < q.character)

instance (p q : ExactPosition) : Decidable (lexLe p q) := by
  unfold lexLe; infer_instance

instance (p q : ExactPosition) : Decidable (lexLt p q) := by
  unfold lexLt; infer_instance

/-- Modelled from the spec: interpret a position back into a character
offset of the content — the least offset that the forward walk
`offsetToPosition` maps to the position (spec §8, round trip). -/
def positionToOffset (content : List Char) (p : ExactPosition) : Option Nat :=
  (List.range (content.length + 1)).find?
    (fun o => decide (offsetToPosition content o = p))

/-- Rewrite every `\n` of a text as `\r\n` (spec §4.1, CRLF tolerance). -/
def crlfOf : List Char → List Char
  | [] => []
  | c :: rest => if c = '\n' then '\r' :: '\n' :: crlfOf rest else c :: crlfOf rest

/-! Helper lemmas about the scanning primitives. -/

theorem isPrefixOf_nil_iff {needle : List Char} :
    needle.isPrefixOf ([] : List Char) = true ↔ needle = [] := by
  cases needle <;> simp [List.isPrefixOf]

theorem scanMatch_le {needle : List Char} :
    ∀ {rest : List Char} {pos f : Nat}, scanMatch needle rest pos = some f → pos ≤ f := by
  intro rest
  induction rest with
  | nil =>
    intro pos f h
    simp only [scanMatch] at h
    split at h
    · exact le_of_eq (Option.some.inj h)
    · exact absurd h (by simp)
  | cons c t ih =>
    intro pos f h
    simp only [scanMatch] at h
    split at h
    · exact le_of_eq (Option.some.inj h)
    · exact Nat.le_of_succ_le (ih h)

theorem scanMatch_le_len {needle : List Char} :
    ∀ {rest : List Char} {pos f : Nat}, scanMatch needle rest pos = some f →
      f ≤ pos + rest.length := by
  intro rest
  induction rest with
  | nil =>
    intro pos f h
    simp only [scanMatch] at h
    split at h
    · simpa using (Option.some.inj h).symm.le
    · exact absurd h (by simp)
  | cons c t ih =>
    intro pos f h
    simp only [scanMatch] at h
    split at h
    · exact (Option.some.inj h) ▸ Nat.le_add_right pos _
    · calc f ≤ (pos + 1) + t.length := ih h
        _ = pos + (c :: t).length := by simp [List.length_cons]; omega

theorem scanMatch_isPrefixOf {needle : List Char} :
    ∀ {rest : List Char} {pos f : Nat}, scanMatch needle rest pos = some f →
      needle.isPrefixOf (rest.drop (f - pos)) := by
  intro rest
  induction rest with
  | nil =>
    intro pos f h
    simp only [scanMatch] at h
    split at h
    · simpa [List.drop_nil] using ‹needle.isPrefixOf []›
    · exact absurd h (by simp)
  | cons c t ih =>
    intro pos f h
    simp only [scanMatch] at h
    split at h
    · obtain rfl : pos = f := Option.some.inj h
      simpa using ‹needle.isPrefixOf (c :: t)›
    · have hle : pos + 1 ≤ f := scanMatch_le h
      have := ih h
      have harith : f - pos = (f - (pos + 1)) + 1 := by omega
      rw [harith]
      simpa using this

theorem scanMatch_head {needle : List Char} :
    ∀ (rest : List Char) (pos : Nat),
      scanMatch needle rest pos = (matchPositions needle rest pos).head? := by
  intro rest
  induction rest with
  | nil =>
    intro pos
    simp only [scanMatch, matchPositions]
    split <;> simp
  | cons c t ih =>
    intro pos
    simp only [scanMatch, matchPositions]
    split
    · simp
    · simpa using ih (pos + 1)

theorem matchPositions_nil_of_ne {needle : List Char} (hn : needle ≠ []) (pos : Nat) :
    matchPositions needle [] pos = [] := by
  simp only [matchPositions]
  split
  · exact absurd (isPrefixOf_nil_iff.mp ‹_›) hn
  · rfl

theorem jsIndexOf_le {hay needle : List Char} {start f : Nat}
    (h : jsIndexOf hay needle start = some f) : start ≤ f :=
  scanMatch_le h

theorem jsIndexOf_le_length {hay needle : List Char} {start f : Nat}
    (hs : start ≤ hay.length) (h : jsIndexOf hay needle start = some f) :
    f ≤ hay.length := by
  have := scanMatch_le_len h
  rw [List.length_drop] at this
  omega

theorem jsIndexOf_isPrefixOf {hay needle : List Char} {start f : Nat}
    (h : jsIndexOf hay needle start = some f) : needle.isPrefixOf (hay.drop f) := by
  have hpre := scanMatch_isPrefixOf h
  have hle := scanMatch_le h
  rwa [List.drop_drop, Nat.add_sub_cancel' hle] at hpre

theorem drop_cons_step {l t : List Char} {c : Char} {n : Nat}
    (h : l.drop n = c :: t) : l.drop (n + 1) = t := by
  rw [← List.tail_drop, h]
  rfl

theorem matchPositions_drop_cons {hay needle : List Char} (hn : needle ≠ []) :
    ∀ (rest : List Char) (pos : Nat), rest = hay.drop pos →
      ∀ {f : Nat}, scanMatch needle rest pos = some f →
        matchPositions needle rest pos =
          f :: matchPositions needle (hay.drop (f + 1)) (f + 1) := by
  intro rest
  induction rest with
  | nil =>
    intro pos _ f h
    simp only [scanMatch] at h
    split at h
    · exact absurd (isPrefixOf_nil_iff.mp ‹_›) hn
    · exact absurd h (by simp)
  | cons c t ih =>
    intro pos hdrop f h
    simp only [scanMatch] at h
    simp only [matchPositions]
    split
    · obtain rfl : pos = f := Option.some.inj (by rwa [if_pos ‹_›] at h)
      have ht : hay.drop (pos + 1) = t := drop_cons_step hdrop.symm
      rw [ht]
      rfl
    · rw [if_neg ‹_›] at h
      have ht : t = hay.drop (pos + 1) := (drop_cons_step hdrop.symm).symm
      simpa using ih (pos + 1) ht h

/-! Characterisation of the per-line occurrence search. -/

theorem matchPositions_of_head_none {needle rest : List Char} {pos : Nat}
    (h : scanMatch needle rest pos = none) : matchPositions needle rest pos = [] := by
  rw [scanMatch_head] at h
  exact List.head?_eq_none_iff.mp h

theorem matchPositions_of_head_some {needle rest : List Char} {pos f : Nat}
    (h : scanMatch needle rest pos = some f) :
    ∃ t, matchPositions needle rest pos = f :: t := by
  rw [scanMatch_head] at h
  cases hmp : matchPositions needle rest pos with
  | nil => rw [hmp] at h; exact absurd h (by simp)
  | cons a t =>
    rw [hmp] at h
    simp only [List.head?_cons, Option.some.injEq] at h
    exact ⟨t, by rw [h]⟩

theorem findFrom_eq_matchPositions {hay needle : List Char} (hn : needle ≠ []) :
    ∀ (k start : Nat),
      findFrom hay needle start k = (matchPositions needle (hay.drop start) start).get? k := by
  intro k
  induction k with
  | zero =>
    intro start
    rw [findFrom]
    split
    · cases hidx : jsIndexOf hay needle start with
      | none =>
        rw [matchPositions_of_head_none hidx]
        simp
      | some f =>
        obtain ⟨t, ht⟩ := matchPositions_of_head_some hidx
        rw [ht]
        simp
    · have hdrop : hay.drop start = [] := List.drop_eq_nil_of_le (by omega)
      rw [hdrop, matchPositions_nil_of_ne hn]
      simp
  | succ k' ih =>
    intro start
    rw [findFrom]
    split
    · cases hidx : jsIndexOf hay needle start with
      | none =>
        rw [matchPositions_of_head_none hidx]
        simp
      | some f =>
        have hcons := matchPositions_drop_cons hn (hay.drop start) start rfl hidx
        rw [hcons]
        simpa using ih (f + 1)
    · have hdrop : hay.drop start = [] := List.drop_eq_nil_of_le (by omega)
      rw [hdrop, matchPositions_nil_of_ne hn]
      simp

theorem findSymbolInLine_eq_occurrences {l needle : List Char} (hn : needle ≠ []) (k : Nat) :
    findSymbolInLine (some l) needle k = (occurrenceOffsets l needle).get? k := by
  simp only [findSymbolInLine, occurrenceOffsets]
  split
  · have hl : l = [] := List.length_eq_zero.mp ‹_›
    subst hl
    rw [matchPositions_nil_of_ne hn]
    simp
  · have := @findFrom_eq_matchPositions l needle hn k 0
    rwa [List.drop_zero] at this

theorem findFrom_sound {hay needle : List Char} :
    ∀ (k : Nat) {start c : Nat}, findFrom hay needle start k = some c →
      start ≤ c ∧ needle.isPrefixOf (hay.drop c) := by
  intro k
  induction k with
  | zero =>
    intro start c h
    rw [findFrom] at h
    split at h
    · cases hidx : jsIndexOf hay needle start with
      | none => rw [hidx] at h; exact absurd h (by simp)
      | some f =>
        rw [hidx] at h
        simp only [Option.some.injEq] at h
        subst h
        exact ⟨jsIndexOf_le hidx, jsIndexOf_isPrefixOf hidx⟩
    · exact absurd h (by simp)
  | succ k' ih =>
    intro start c h
    rw [findFrom] at h
    split at h
    · cases hidx : jsIndexOf hay needle start with
      | none => rw [hidx] at h; exact absurd h (by simp)
      | some f =>
        rw [hidx] at h
        have hrec := ih h
        have := jsIndexOf_le hidx
        exact ⟨by omega, hrec.2⟩
    · exact absurd h (by simp)

theorem findSymbolInLine_sound {line : Option (List Char)} {needle : List Char}
    {k c : Nat} (h : findSymbolInLine line needle k = some c) :
    ∃ l, line = some l ∧ needle.isPrefixOf (l.drop c) := by
  cases line with
  | none => exact absurd h (by simp [findSymbolInLine])
  | some l =>
    refine ⟨l, rfl, ?_⟩
    simp only [findSymbolInLine] at h
    split at h
    · exact absurd h (by simp)
    · exact (findFrom_sound _ h).2

theorem scanMatch_nil_needle : ∀ (rest : List Char) (pos : Nat),
    scanMatch [] rest pos = some pos := by
  intro rest pos
  cases rest <;> simp [scanMatch, List.isPrefixOf]

theorem findFrom_nil_needle {hay : List Char} :
    ∀ (k start : Nat),
      findFrom hay [] start k = if start + k < hay.length then some (start + k) else none := by
  intro k
  induction k with
  | zero =>
    intro start
    rw [findFrom]
    simp only [jsIndexOf, scanMatch_nil_needle, Nat.add_zero]
  | succ k' ih =>
    intro start
    rw [findFrom]
    simp only [jsIndexOf, scanMatch_nil_needle]
    split
    · rw [ih (start + 1)]
      have h3 : start + 1 + k' = start + (k' + 1) := by omega
      rw [h3]
    · rw [if_neg (by omega)]

/-! Lemmas about the expanding-window fallback search. -/

theorem scanWindow_mono {lines : List (List Char)} {name : List Char}
    {order : Nat} {target : Int} :
    ∀ (remaining offset extra : Nat) {p : ExactPosition},
      scanWindow lines name order target offset remaining = some p →
      scanWindow lines name order target offset (remaining + extra) = some p := by
  intro remaining
  induction remaining with
  | zero =>
    intro offset extra p h
    simp [scanWindow] at h
  | succ rem ih =>
    intro offset extra p h
    rw [Nat.add_right_comm]
    rw [scanWindow] at h ⊢
    cases habove : (if 0 ≤ target - (offset : Int) then
        findSymbolInLine (lineAt lines (target - (offset : Int))) name order
      else none) with
    | some c => rw [habove] at h; exact h
    | none =>
      rw [habove] at h
      cases hbelow : (if target + (offset : Int) < (lines.length : Int) then
          findSymbolInLine (lineAt lines (target + (offset : Int))) name order
        else none) with
      | some c => rw [hbelow] at h; exact h
      | none => rw [hbelow] at h; exact ih (offset + 1) extra h

theorem scanWindow_sound {lines : List (List Char)} {name : List Char}
    {order : Nat} {target : Int} :
    ∀ (remaining offset : Nat) {p : ExactPosition},
      scanWindow lines name order target offset remaining = some p →
      ∃ off : Nat, offset ≤ off ∧ off < offset + remaining ∧
        findSymbolInLine (lineAt lines p.line) name order = some p.character ∧
        ((0 ≤ target - (off : Int) ∧ p.line = target - (off : Int)) ∨
          (target + (off : Int) < (lines.length : Int) ∧ p.line = target + (off : Int))) := by
  intro remaining
  induction remaining with
  | zero =>
    intro offset p h
    simp [scanWindow] at h
  | succ rem ih =>
    intro offset p h
    rw [scanWindow] at h
    cases habove : (if 0 ≤ target - (offset : Int) then
        findSymbolInLine (lineAt lines (target - (offset : Int))) name order
      else none) with
    | some c =>
      rw [habove] at h
      have hp : p = ⟨target - (offset : Int), c⟩ := (Option.some.inj h).symm
      subst hp
      have hguard : 0 ≤ target - (offset : Int) := by
        by_contra hneg
        rw [if_neg hneg] at habove
        exact absurd habove (by simp)
      rw [if_pos hguard] at habove
      exact ⟨offset, le_refl _, by omega, habove, Or.inl ⟨hguard, rfl⟩⟩
    | none =>
      rw [habove] at h
      cases hbelow : (if target + (offset : Int) < (lines.length : Int) then
          findSymbolInLine (lineAt lines (target + (offset : Int))) name order
        else none) with
      | some c =>
        rw [hbelow] at h
        have hp : p = ⟨target + (offset : Int), c⟩ := (Option.some.inj h).symm
        subst hp
        have hguard : target + (offset : Int) < (lines.length : Int) := by
          by_contra hneg
          rw [if_neg hneg] at hbelow
          exact absurd hbelow (by simp)
        rw [if_pos hguard] at hbelow
        exact ⟨offset, le_refl _, by omega, hbelow, Or.inr ⟨hguard, rfl⟩⟩
      | none =>
        rw [hbelow] at h
        obtain ⟨off, h1, h2, h3, h4⟩ := ih (offset + 1) h
        exact ⟨off, by omega, by omega, h3, h4⟩

theorem scanWindow_none_of {lines : List (List Char)} {name : List Char}
    {order : Nat} {target : Int} :
    ∀ (remaining offset : Nat),
      (∀ off : Nat, offset ≤ off → off < offset + remaining →
        findSymbolInLine (lineAt lines (target - (off : Int))) name order = none ∧
        findSymbolInLine (lineAt lines (target + (off : Int))) name order = none) →
      scanWindow lines name order target offset remaining = none := by
  intro remaining
  induction remaining with
  | zero => intro offset _; rfl
  | succ rem ih =>
    intro offset hnone
    rw [scanWindow]
    have h0 := hnone offset (le_refl _) (by omega)
    have habove : (if 0 ≤ target - (offset : Int) then
        findSymbolInLine (lineAt lines (target - (offset : Int))) name order
      else none) = none := by
      split
      · exact h0.1
      · rfl
    have hbelow : (if target + (offset : Int) < (lines.length : Int) then
        findSymbolInLine (lineAt lines (target + (offset : Int))) name order
      else none) = none := by
      split
      · exact h0.2
      · rfl
    rw [habove, hbelow]
    exact ih (offset + 1) (fun off hlo hhi => hnone off (by omega) (by omega))

theorem scanWindow_reaches {lines : List (List Char)} {name : List Char}
    {order : Nat} {target : Int} {d c : Nat} :
    ∀ (remaining offset : Nat),
      (∀ off : Nat, offset ≤ off → off < d →
        findSymbolInLine (lineAt lines (target - (off : Int))) name order = none ∧
        findSymbolInLine (lineAt lines (target + (off : Int))) name order = none) →
      offset ≤ d → d < offset + remaining →
      0 ≤ target - (d : Int) →
      findSymbolInLine (lineAt lines (target - (d : Int))) name order = some c →
      scanWindow lines name order target offset remaining = some ⟨target - (d : Int), c⟩ := by
  intro remaining
  induction remaining with
  | zero => intro offset _ _ hlt _ _; omega
  | succ rem ih =>
    intro offset hnear hle hlt hguard hhit
    rw [scanWindow]
    by_cases heq : offset = d
    · subst heq
      rw [if_pos hguard, hhit]
    · have hofflt : offset < d := by omega
      have h0 := hnear offset (le_refl _) hofflt
      have habove : (if 0 ≤ target - (offset : Int) then
          findSymbolInLine (lineAt lines (target - (offset : Int))) name order
        else none) = none := by
        split
        · exact h0.1
        · rfl
      have hbelow : (if target + (offset : Int) < (lines.length : Int) then
          findSymbolInLine (lineAt lines (target + (offset : Int))) name order
        else none) = none := by
        split
        · exact h0.2
        · rfl
      rw [habove, hbelow]
      exact ih (offset + 1) (fun off hlo hhi => hnear off (by omega) hhi)
        (by omega) (by omega) hguard hhit

theorem scanWindow_reaches_below {lines : List (List Char)} {name : List Char}
    {order : Nat} {target : Int} {d c : Nat} :
    ∀ (remaining offset : Nat),
      (∀ off : Nat, offset ≤ off → off < d →
        findSymbolInLine (lineAt lines (target - (off : Int))) name order = none ∧
        findSymbolInLine (lineAt lines (target + (off : Int))) name order = none) →
      offset ≤ d → d < offset + remaining →
      findSymbolInLine (lineAt lines (target - (d : Int))) name order = none →
      target + (d : Int) < (lines.length : Int) →
      findSymbolInLine (lineAt lines (target + (d : Int))) name order = some c →
      scanWindow lines name order target offset remaining = some ⟨target + (d : Int), c⟩ := by
  intro remaining
  induction remaining with
  | zero => intro offset _ _ hlt _ _ _; omega
  | succ rem ih =>
    intro offset hnear hle hlt hmiss hguard hhit
    rw [scanWindow]
    by_cases heq : offset = d
    · subst heq
      have habove : (if 0 ≤ target - (offset : Int) then
          findSymbolInLine (lineAt lines (target - (offset : Int))) name order
        else none) = none := by
        split
        · exact hmiss
        · rfl
      rw [habove, if_pos hguard, hhit]
    · have hofflt : offset < d := by omega
      have h0 := hnear offset (le_refl _) hofflt
      have habove : (if 0 ≤ target - (offset : Int) then
          findSymbolInLine (lineAt lines (target - (offset : Int))) name order
        else none) = none := by
        split
        · exact h0.1
        · rfl
      have hbelow : (if target + (offset : Int) < (lines.length : Int) then
          findSymbolInLine (lineAt lines (target + (offset : Int))) name order
        else none) = none := by
        split
        · exact h0.2
        · rfl
      rw [habove, hbelow]
      exact ih (offset + 1) (fun off hlo hhi => hnear off (by omega) hhi)
        (by omega) (by omega) hmiss hguard hhit

/-! Lemmas about the whole-content occurrence collection. -/

theorem collectAux_eq_matchPositions {content needle : List Char} (hn : needle ≠ []) :
    ∀ (fuel start : Nat), content.length - start ≤ fuel →
      collectAux content needle start fuel =
        matchPositions needle (content.drop start) start := by
  intro fuel
  induction fuel with
  | zero =>
    intro start hfuel
    have hdrop : content.drop start = [] := List.drop_eq_nil_of_le (by omega)
    rw [hdrop, matchPositions_nil_of_ne hn]
    rfl
  | succ fuel ih =>
    intro start hfuel
    rw [collectAux]
    split
    · cases hidx : jsIndexOf content needle start with
      | none =>
        rw [matchPositions_of_head_none hidx]
      | some f =>
        have hcons := matchPositions_drop_cons hn (content.drop start) start rfl hidx
        rw [hcons]
        have hle := jsIndexOf_le hidx
        show f :: collectAux content needle (f + 1) fuel = _
        rw [ih (f + 1) (by omega)]
    · have hdrop : content.drop start = [] := List.drop_eq_nil_of_le (by omega)
      rw [hdrop, matchPositions_nil_of_ne hn]

theorem collectOccurrences_eq_matchPositions {content needle : List Char} (hn : needle ≠ []) :
    collectOccurrences content needle = matchPositions needle content 0 := by
  rw [collectOccurrences, collectAux_eq_matchPositions hn content.length 0 (by omega),
    List.drop_zero]

theorem collectAux_sound {content needle : List Char} :
    ∀ (fuel start : Nat) {x : Nat}, x ∈ collectAux content needle start fuel →
      start ≤ x ∧ x ≤ content.length ∧ needle.isPrefixOf (content.drop x) := by
  intro fuel
  induction fuel with
  | zero =>
    intro start x hx
    exact absurd hx (by simp [collectAux])
  | succ fuel ih =>
    intro start x hx
    rw [collectAux] at hx
    split at hx
    · cases hidx : jsIndexOf content needle start with
      | none => rw [hidx] at hx; exact absurd hx (by simp)
      | some f =>
        rw [hidx] at hx
        have hle := jsIndexOf_le hidx
        have hflen : f ≤ content.length := jsIndexOf_le_length (by omega) hidx
        rcases List.mem_cons.mp hx with hxf | hxrec
        · subst hxf
          exact ⟨hle, hflen, jsIndexOf_isPrefixOf hidx⟩
        · have := ih (f + 1) hxrec
          exact ⟨by omega, this.2.1, this.2.2⟩
    · exact absurd hx (by simp)

theorem findExactText_ok_shape {content text : List Char} {r : DiskRange}
    (h : findExactText content text = .ok r) :
    ∃ s, collectOccurrences content text = [s] ∧
      r = ⟨offsetToPosition content s, offsetToPosition content (s + text.length)⟩ := by
  rw [findExactText] at h
  split at h
  · exact absurd h (by simp)
  · split at h
    · exact absurd h (by simp)
    · have hlen : (collectOccurrences content text).length = 1 := by omega
      obtain ⟨s, hs⟩ := List.length_eq_one.mp hlen
      refine ⟨s, hs, ?_⟩
      rw [hs] at h
      simpa [List.headD] using (Option.some.inj (by simpa using h)).symm

/-! Lexicographic monotonicity of the offset-to-position walk. -/

theorem lexLe_refl (p : ExactPosition) : lexLe p p :=
  Or.inr ⟨rfl, le_refl _⟩

theorem lexLe_trans {p q r : ExactPosition} (h1 : lexLe p q) (h2 : lexLe q r) :
    lexLe p r := by
  rcases h1 with h1 | ⟨h1, h1c⟩ <;> rcases h2 with h2 | ⟨h2, h2c⟩
  · exact Or.inl (lt_trans h1 h2)
  · exact Or.inl (h2 ▸ h1)
  · exact Or.inl (h1 ▸ h2)
  · exact Or.inr ⟨h1.trans h2, le_trans h1c h2c⟩

theorem lexLt_of_lexLt_of_lexLe {p q r : ExactPosition} (h1 : lexLt p q)
    (h2 : lexLe q r) : lexLt p r := by
  rcases h1 with h1 | ⟨h1, h1c⟩ <;> rcases h2 with h2 | ⟨h2, h2c⟩
  · exact Or.inl (lt_trans h1 h2)
  · exact Or.inl (h2 ▸ h1)
  · exact Or.inl (h1 ▸ h2)
  · exact Or.inr ⟨h1.trans h2, lt_of_lt_of_le h1c h2c⟩

theorem lexLt_ne {p q : ExactPosition} (h : lexLt p q) : p ≠ q := by
  intro heq
  subst heq
  rcases h with h | ⟨_, h⟩
  · exact lt_irrefl _ h
  · exact lt_irrefl _ h

theorem lexLe_of_lexLt {p q : ExactPosition} (h : lexLt p q) : lexLe p q := by
  rcases h with h | ⟨h1, h2⟩
  · exact Or.inl h
  · exact Or.inr ⟨h1, le_of_lt h2⟩

theorem offsetToPosAux_le_succ :
    ∀ (rest : List Char) (off : Nat) (line : Int) (character : Nat),
      lexLe (offsetToPosAux rest off line character)
        (offsetToPosAux rest (off + 1) line character) := by
  intro rest
  induction rest with
  | nil =>
    intro off line character
    cases off <;> exact lexLe_refl _
  | cons c t ih =>
    intro off line character
    cases off with
    | zero =>
      show lexLe ⟨line, character⟩ (offsetToPosAux (c :: t) 1 line character)
      by_cases hc : c = '\n'
      · have : offsetToPosAux (c :: t) 1 line character = ⟨line + 1, 0⟩ := by
          simp [offsetToPosAux, hc]
        rw [this]
        exact Or.inl (show line < line + 1 by omega)
      · have : offsetToPosAux (c :: t) 1 line character = ⟨line, character + 1⟩ := by
          simp [offsetToPosAux, hc]
        rw [this]
        exact Or.inr ⟨rfl, show character ≤ character + 1 by omega⟩
    | succ o =>
      show lexLe (offsetToPosAux (c :: t) (o + 1) line character)
        (offsetToPosAux (c :: t) (o + 1 + 1) line character)
      by_cases hc : c = '\n'
      · simpa [offsetToPosAux, hc] using ih o (line + 1) 0
      · simpa [offsetToPosAux, hc] using ih o line (character + 1)

theorem offsetToPosAux_lt_succ :
    ∀ (rest : List Char) (off : Nat) (line : Int) (character : Nat),
      off < rest.length →
      lexLt (offsetToPosAux rest off line character)
        (offsetToPosAux rest (off + 1) line character) := by
  intro rest
  induction rest with
  | nil =>
    intro off line character h
    exact absurd h (by simp)
  | cons c t ih =>
    intro off line character h
    cases off with
    | zero =>
      show lexLt ⟨line, character⟩ (offsetToPosAux (c :: t) 1 line character)
      by_cases hc : c = '\n'
      · have : offsetToPosAux (c :: t) 1 line character = ⟨line + 1, 0⟩ := by
          simp [offsetToPosAux, hc]
        rw [this]
        exact Or.inl (show line < line + 1 by omega)
      · have : offsetToPosAux (c :: t) 1 line character = ⟨line, character + 1⟩ := by
          simp [offsetToPosAux, hc]
        rw [this]
        exact Or.inr ⟨rfl, show character < character + 1 by omega⟩
    | succ o =>
      have ho : o < t.length := by simpa using h
      by_cases hc : c = '\n'
      · simpa [offsetToPosAux, hc] using ih o (line + 1) 0 ho
      · simpa [offsetToPosAux, hc] using ih o line (character + 1) ho

theorem offsetToPosition_mono {content : List Char} {o1 o2 : Nat} (h : o1 ≤ o2) :
    lexLe (offsetToPosition content o1) (offsetToPosition content o2) := by
  induction o2, h using Nat.le_induction with
  | base => exact lexLe_refl _
  | succ o2 _ ih =>
    exact lexLe_trans ih (offsetToPosAux_le_succ content o2 0 0)

theorem offsetToPosition_strict {content : List Char} {o1 o2 : Nat}
    (h : o1 < o2) (h2 : o2 ≤ content.length) :
    lexLt (offsetToPosition content o1) (offsetToPosition content o2) := by
  have hstep : lexLt (offsetToPosition content o1) (offsetToPosition content (o1 + 1)) :=
    offsetToPosAux_lt_succ content o1 0 0 (by omega)
  exact lexLt_of_lexLt_of_lexLe hstep (offsetToPosition_mono (by omega))

theorem offsetToPosition_ne {content : List Char} {o1 o2 : Nat}
    (h : o1 < o2) (h2 : o2 ≤ content.length) :
    offsetToPosition content o1 ≠ offsetToPosition content o2 :=
  lexLt_ne (offsetToPosition_strict h h2)

/-! Finding the least witness in a range. -/

theorem find?_append_some {α : Type} {p : α → Bool} {a : α} :
    ∀ {l l' : List α}, l.find? p = some a → (l ++ l').find? p = some a := by
  intro l
  induction l with
  | nil => intro l' h; exact absurd h (by simp)
  | cons x t ih =>
    intro l' h
    rw [List.find?] at h
    rw [List.cons_append, List.find?]
    cases hx : p x with
    | true => rw [hx] at h; simpa [hx] using h
    | false => rw [hx] at h; simpa [hx] using ih h

theorem find?_append_none {α : Type} {p : α → Bool} :
    ∀ {l l' : List α}, l.find? p = none → (l ++ l').find? p = l'.find? p := by
  intro l
  induction l with
  | nil => intro l' _; rfl
  | cons x t ih =>
    intro l' h
    rw [List.find?] at h
    rw [List.cons_append, List.find?]
    cases hx : p x with
    | true => rw [hx] at h; exact absurd h (by simp)
    | false => rw [hx] at h; simpa [hx] using ih h

theorem find?_range_min {p : Nat → Bool} :
    ∀ {n s : Nat}, s < n → p s = true → (∀ o, o < s → p o = false) →
      (List.range n).find? p = some s := by
  intro n
  induction n with
  | zero => intro s h; omega
  | succ n ih =>
    intro s hsn hps hmin
    rw [List.range_succ]
    by_cases hlt : s < n
    · exact find?_append_some (ih hlt hps hmin)
    · have hsn' : s = n := by omega
      subst hsn'
      have hnone : (List.range s).find? p = none := by
        rw [List.find?_eq_none]
        intro x hx
        simp [hmin x (List.mem_range.mp hx)]
      rw [find?_append_none hnone]
      simp [List.find?, hps]

theorem positionToOffset_round {content : List Char} {o : Nat}
    (h : o ≤ content.length) :
    positionToOffset content (offsetToPosition content o) = some o := by
  rw [positionToOffset]
  apply find?_range_min
  · omega
  · simp
  · intro o' ho'
    simp only [decide_eq_false_iff_not]
    exact offsetToPosition_ne ho' h

/-! CRLF tolerance of the line splitter. -/

theorem splitLinesAux_newline (rest : List Char) (acc : List Char) :
    splitLinesAux ('\n' :: rest) acc = acc.reverse :: splitLinesAux rest [] := rfl

theorem splitLinesAux_crlf (rest : List Char) (acc : List Char) :
    splitLinesAux ('\r' :: '\n' :: rest) acc = acc.reverse :: splitLinesAux rest [] := rfl

theorem splitLinesAux_other {c : Char} (h1 : c ≠ '\n') (h2 : c ≠ '\r')
    (rest : List Char) (acc : List Char) :
    splitLinesAux (c :: rest) acc = splitLinesAux rest (c :: acc) := by
  rw [splitLinesAux.eq_def]
  split
  · simp_all
  · simp_all
  · simp_all
  · simp_all

theorem crlfOf_not_mem_cr : ∀ {cs : List Char}, '\r' ∉ cs →
    ∀ (acc : List Char), splitLinesAux (crlfOf cs) acc = splitLinesAux cs acc := by
  intro cs
  induction cs with
  | nil => intro _ _; rfl
  | cons c t ih =>
    intro hmem acc
    have hc : c ≠ '\r' := by
      intro hc
      exact hmem (hc ▸ List.mem_cons_self c t)
    have ht : '\r' ∉ t := fun h => hmem (List.mem_cons_of_mem c h)
    by_cases hn : c = '\n'
    · subst hn
      have hstep : crlfOf ('\n' :: t) = '\r' :: '\n' :: crlfOf t := by
        rw [crlfOf]
        simp
      rw [hstep, splitLinesAux_crlf, splitLinesAux_newline, ih ht]
    · have hstep : crlfOf (c :: t) = c :: crlfOf t := by
        rw [crlfOf]
        simp [hn]
      rw [hstep, splitLinesAux_other hn hc, splitLinesAux_other hn hc, ih ht]

theorem splitLines_crlfOf {content : List Char} (h : '\r' ∉ content) :
    splitLines (crlfOf content) = splitLines content :=
  crlfOf_not_mem_cr h []

theorem lineAt_some {lines : List (List Char)} {i : Int} {l : List Char}
    (h : lineAt lines i = some l) : 0 ≤ i ∧ i < (lines.length : Int) := by
  rw [lineAt] at h
  split at h
  · have hlt := List.get?_eq_some.mp h
    obtain ⟨hbound, -⟩ := hlt
    constructor
    · assumption
    · omega
  · exact absurd h (by simp)

/-! The claims. -/

/-- C10: with an empty `symbolName` (violating the spec precondition but not
rejected by the code) the per-line search treats every character position of
a non-empty line as an occurrence: it returns `orderHint` exactly when the
line exists, is non-empty, and `orderHint` is below the line length, and it
finds nothing on an absent or empty line. -/
theorem findSymbolInLine_empty_symbol :
    ∀ (line : Option (List Char)) (k : Nat),
      findSymbolInLine line [] k =
        match line with
        | none => none
        | some l => if k < l.length then some k else none := by
  intro line k
  cases line with
  | none => rfl
  | some l =>
    show findSymbolInLine (some l) [] k = if k < l.length then some k else none
    rw [findSymbolInLine]
    show (if l.length = 0 then none else findFrom l [] 0 k) = _
    split
    · rw [if_neg (by omega)]
    · rw [findFrom_nil_needle k 0]
      simp

/-- C2: for a non-empty symbol the per-line search returns exactly the
`orderHint`-th entry (0-based) of the overlap-permitting occurrence-offset
list of the line; the scan advances one character past each match start, so
occurrences may overlap — "aa" occurs in "aaa" at offsets 0 and 1 — and
`orderHint = 0` on a line holding the symbol once yields its first offset. -/
theorem findSymbolInLine_kth_occurrence (l needle : List Char) (hn : needle ≠ []) :
    (∀ k : Nat,
      findSymbolInLine (some l) needle k = (occurrenceOffsets l needle).get? k)
    ∧ occurrenceOffsets ('a' :: 'a' :: 'a' :: []) ('a' :: 'a' :: []) = [0, 1] :=
  ⟨fun k => findSymbolInLine_eq_occurrences hn k, by decide⟩

theorem findSymbolInLine_kth_occurrence_witness :
    ("x".data ≠ [] ∧
      findSymbolInLine (some "sum(x, x, x);".data) "x".data 1 =
        (occurrenceOffsets "sum(x, x, x);".data "x".data).get? 1) ∧
    findSymbolInLine (some "sum(x, x, x);".data) "x".data 1 = some 7 :=
  ⟨⟨by decide,
      (findSymbolInLine_kth_occurrence "sum(x, x, x);".data "x".data (by decide)).1 1⟩,
    by decide⟩

/-- C4: for a fixed file content and fuzzy anchor, success is monotone in
`lineSearchRadius`: a resolution succeeding at radius `r` succeeds (with the
same position) at every radius `r' ≥ r`, so widening the radius can only
turn a failure into a success. -/
theorem resolvePosition_radius_mono (content : List Char) (fuzzy : FuzzyPosition)
    (r r' : Nat) (p : ExactPosition) (hr : r ≤ r')
    (h : resolvePosition content fuzzy r = .ok p) :
    resolvePosition content fuzzy r' = .ok p := by
  rw [resolvePosition, resolveInLines] at h ⊢
  cases hexact : findSymbolInLine (lineAt (splitLines content) (fuzzy.lineHint - 1))
      fuzzy.symbolName (fuzzy.orderHint.getD 0) with
  | some c =>
    rw [hexact] at h
    exact h
  | none =>
    rw [hexact] at h
    cases hscan : scanWindow (splitLines content) fuzzy.symbolName
        (fuzzy.orderHint.getD 0) (fuzzy.lineHint - 1) 1 r with
    | some q =>
      rw [hscan] at h
      have hscan' : scanWindow (splitLines content) fuzzy.symbolName
          (fuzzy.orderHint.getD 0) (fuzzy.lineHint - 1) 1 r' = some q := by
        have := scanWindow_mono r 1 (r' - r) hscan
        rwa [Nat.add_sub_cancel' hr] at this
      rw [hscan']
      exact h
    | none =>
      rw [hscan] at h
      exact absurd h (by simp)

theorem resolvePosition_radius_mono_witness :
    (1 ≤ 3 ∧ resolvePosition "target\nx\nx\nhint".data ⟨"target".data, 2, none⟩ 1 = .ok ⟨0, 0⟩) ∧
    resolvePosition "target\nx\nx\nhint".data ⟨"target".data, 2, none⟩ 3 = .ok ⟨0, 0⟩ :=
  ⟨⟨by omega, by decide⟩,
    resolvePosition_radius_mono "target\nx\nx\nhint".data ⟨"target".data, 2, none⟩ 1 3
      ⟨0, 0⟩ (by omega) (by decide)⟩

/-- C9: a successful resolution with a non-empty symbol is sound: the
returned line is within `lineSearchRadius` of the hinted line, is a valid
index into the split line sequence, and the line's text contains the symbol
starting exactly at the returned character offset. -/
theorem resolvePosition_sound (content : List Char) (fuzzy : FuzzyPosition)
    (radius : Nat) (p : ExactPosition) (_hn : fuzzy.symbolName ≠ [])
    (h : resolvePosition content fuzzy radius = .ok p) :
    (p.line - (fuzzy.lineHint - 1)).natAbs ≤ radius ∧
      0 ≤ p.line ∧ p.line < ((splitLines content).length : Int) ∧
      ∃ l, lineAt (splitLines content) p.line = some l ∧
        fuzzy.symbolName.isPrefixOf (l.drop p.character) := by
  rw [resolvePosition, resolveInLines] at h
  cases hexact : findSymbolInLine (lineAt (splitLines content) (fuzzy.lineHint - 1))
      fuzzy.symbolName (fuzzy.orderHint.getD 0) with
  | some c =>
    rw [hexact] at h
    have hp : p = ⟨fuzzy.lineHint - 1, c⟩ := (Except.ok.inj h).symm
    subst hp
    obtain ⟨l, hl, hpre⟩ := findSymbolInLine_sound hexact
    obtain ⟨hge, hlt⟩ := lineAt_some hl
    exact ⟨by simp, hge, hlt, l, hl, hpre⟩
  | none =>
    rw [hexact] at h
    cases hscan : scanWindow (splitLines content) fuzzy.symbolName
        (fuzzy.orderHint.getD 0) (fuzzy.lineHint - 1) 1 radius with
    | some q =>
      rw [hscan] at h
      have hq : q = p := Except.ok.inj h
      subst hq
      obtain ⟨off, hoff1, hoff2, hfind, hcases⟩ := scanWindow_sound radius 1 hscan
      obtain ⟨l, hl, hpre⟩ := findSymbolInLine_sound hfind
      obtain ⟨hge, hlt⟩ := lineAt_some hl
      refine ⟨?_, hge, hlt, l, hl, hpre⟩
      rcases hcases with ⟨-, hline⟩ | ⟨-, hline⟩ <;> rw [hline] <;> omega
    | none =>
      rw [hscan] at h
      exact absurd h (by simp)

theorem resolvePosition_sound_witness :
    ("goodbye".data ≠ [] ∧
      resolvePosition "hello\ngoodbye".data ⟨"goodbye".data, 2, none⟩ 2 = .ok ⟨1, 0⟩) ∧
    ((⟨1, 0⟩ : ExactPosition).line -
      ((⟨"goodbye".data, 2, none⟩ : FuzzyPosition).lineHint - 1)).natAbs ≤ 2 :=
  ⟨⟨by decide, by decide⟩,
    (resolvePosition_sound "hello\ngoodbye".data ⟨"goodbye".data, 2, none⟩ 2 ⟨1, 0⟩
      (by decide) (by decide)).1⟩

/-- C1: `resolvePosition` searches the exact hinted line first and returns
immediately on a hit; otherwise it examines offsets 1 up to the radius in
increasing order, checking the line above (when `≥ 0`) before the line below
(when in bounds) at each offset, and returns the first hit whichever side it
is on: a first hit on the line above at offset `d` is returned even when the
line below at `d` also matches (the equal-distance tie-break), and a first
hit on the line below at offset `d` is returned when the line above at `d`
has no match. -/
theorem resolvePosition_search_order (content : List Char) (fuzzy : FuzzyPosition)
    (radius d c : Nat) :
    (findSymbolInLine (lineAt (splitLines content) (fuzzy.lineHint - 1))
        fuzzy.symbolName (fuzzy.orderHint.getD 0) = some c →
      resolvePosition content fuzzy radius = .ok ⟨fuzzy.lineHint - 1, c⟩)
    ∧ (1 ≤ d → d ≤ radius →
      findSymbolInLine (lineAt (splitLines content) (fuzzy.lineHint - 1))
        fuzzy.symbolName (fuzzy.orderHint.getD 0) = none →
      (∀ off : Nat, off < d → 1 ≤ off →
        findSymbolInLine (lineAt (splitLines content) (fuzzy.lineHint - 1 - (off : Int)))
          fuzzy.symbolName (fuzzy.orderHint.getD 0) = none ∧
        findSymbolInLine (lineAt (splitLines content) (fuzzy.lineHint - 1 + (off : Int)))
          fuzzy.symbolName (fuzzy.orderHint.getD 0) = none) →
      0 ≤ fuzzy.lineHint - 1 - (d : Int) →
      findSymbolInLine (lineAt (splitLines content) (fuzzy.lineHint - 1 - (d : Int)))
        fuzzy.symbolName (fuzzy.orderHint.getD 0) = some c →
      resolvePosition content fuzzy radius = .ok ⟨fuzzy.lineHint - 1 - (d : Int), c⟩)
    ∧ (1 ≤ d → d ≤ radius →
      findSymbolInLine (lineAt (splitLines content) (fuzzy.lineHint - 1))
        fuzzy.symbolName (fuzzy.orderHint.getD 0) = none →
      (∀ off : Nat, off < d → 1 ≤ off →
        findSymbolInLine (lineAt (splitLines content) (fuzzy.lineHint - 1 - (off : Int)))
          fuzzy.symbolName (fuzzy.orderHint.getD 0) = none ∧
        findSymbolInLine (lineAt (splitLines content) (fuzzy.lineHint - 1 + (off : Int)))
          fuzzy.symbolName (fuzzy.orderHint.getD 0) = none) →
      findSymbolInLine (lineAt (splitLines content) (fuzzy.lineHint - 1 - (d : Int)))
        fuzzy.symbolName (fuzzy.orderHint.getD 0) = none →
      fuzzy.lineHint - 1 + (d : Int) < ((splitLines content).length : Int) →
      findSymbolInLine (lineAt (splitLines content) (fuzzy.lineHint - 1 + (d : Int)))
        fuzzy.symbolName (fuzzy.orderHint.getD 0) = some c →
      resolvePosition content fuzzy radius = .ok ⟨fuzzy.lineHint - 1 + (d : Int), c⟩) := by
  refine ⟨?_, ?_, ?_⟩
  · intro hexact
    rw [resolvePosition, resolveInLines, hexact]
  · intro hd hdr hexact hnear hguard hhit
    rw [resolvePosition, resolveInLines, hexact]
    have hscan := scanWindow_reaches radius 1
      (fun off h1 h2 => hnear off h2 h1) hd (by omega) hguard hhit
    rw [hscan]
  · intro hd hdr hexact hnear hmiss hguard hhit
    rw [resolvePosition, resolveInLines, hexact]
    have hscan := scanWindow_reaches_below radius 1
      (fun off h1 h2 => hnear off h2 h1) hd (by omega) hmiss hguard hhit
    rw [hscan]

theorem resolvePosition_search_order_witness :
    ((findSymbolInLine (lineAt (splitLines "x\n\nx".data) ((2 : Int) - 1 - ((1 : Nat) : Int)))
        "x".data 0 = some 0 ∧
      findSymbolInLine (lineAt (splitLines "x\n\nx".data) ((2 : Int) - 1 + ((1 : Nat) : Int)))
        "x".data 0 = some 0) ∧
    resolvePosition "x\n\nx".data ⟨"x".data, 2, none⟩ 2 = .ok ⟨0, 0⟩) ∧
    resolvePosition "a\nb\nx".data ⟨"x".data, 1, none⟩ 2 = .ok ⟨2, 0⟩ := by
  refine ⟨⟨⟨by decide, by decide⟩, ?_⟩, ?_⟩
  · exact (resolvePosition_search_order "x\n\nx".data ⟨"x".data, 2, none⟩ 2 1 0).2.1
      (by omega) (by omega) (by decide) (by decide) (by decide) (by decide)
  · exact (resolvePosition_search_order "a\nb\nx".data ⟨"x".data, 1, none⟩ 2 2 0).2.2
      (by omega) (by omega) (by decide) (by decide) (by decide) (by decide) (by decide)

/-- C6: when no occurrence of the symbol is found on any line of the search
window, `resolvePosition` fails with a fully filled `SymbolResolutionError`
carrying the symbol name, the original 1-based line hint, and a reason
reporting the searched range from `max(1, lineHint - radius)` to
`min(lineCount, lineHint + radius)`. -/
theorem resolvePosition_failure_fields (content : List Char) (fuzzy : FuzzyPosition)
    (radius : Nat)
    (hexact : findSymbolInLine (lineAt (splitLines content) (fuzzy.lineHint - 1))
      fuzzy.symbolName (fuzzy.orderHint.getD 0) = none)
    (hwin : ∀ off : Nat, off ≤ radius → 1 ≤ off →
      findSymbolInLine (lineAt (splitLines content) (fuzzy.lineHint - 1 - (off : Int)))
        fuzzy.symbolName (fuzzy.orderHint.getD 0) = none ∧
      findSymbolInLine (lineAt (splitLines content) (fuzzy.lineHint - 1 + (off : Int)))
        fuzzy.symbolName (fuzzy.orderHint.getD 0) = none) :
    resolvePosition content fuzzy radius = .error
      ⟨fuzzy.symbolName, fuzzy.lineHint,
        "Please verify the file content and try again. Searched lines ".data
          ++ (toString (max 1 (fuzzy.lineHint - (radius : Int)))).data
          ++ " to ".data
          ++ (toString (min (((splitLines content).length : Int))
                (fuzzy.lineHint + (radius : Int)))).data
          ++ ".".data⟩ := by
  rw [resolvePosition, resolveInLines, hexact]
  have hscan := scanWindow_none_of radius 1 (fun off h1 h2 => hwin off (by omega) h1)
  rw [hscan]
  rfl

theorem resolvePosition_failure_fields_witness :
    resolvePosition "abc".data ⟨"zzz".data, 1, none⟩ 2 = .error
      ⟨"zzz".data, 1, resolutionReason (splitLines "abc".data).length 1 2⟩ := by
  have h := resolvePosition_failure_fields "abc".data ⟨"zzz".data, 1, none⟩ 2
    (by decide) (by decide)
  exact h

/-- C7: the line split treats `\r\n` and `\n` as equivalent separators: for
content free of carriage returns, rewriting every `\n` as `\r\n` leaves the
split line sequence unchanged, and therefore `resolvePosition` returns the
identical result on both encodings for every fuzzy anchor and radius. -/
theorem resolvePosition_crlf_invariant (content : List Char) (h : '\r' ∉ content) :
    splitLines (crlfOf content) = splitLines content ∧
    ∀ (fuzzy : FuzzyPosition) (radius : Nat),
      resolvePosition (crlfOf content) fuzzy radius = resolvePosition content fuzzy radius := by
  refine ⟨splitLines_crlfOf h, fun fuzzy radius => ?_⟩
  rw [resolvePosition, resolvePosition, splitLines_crlfOf h]

theorem resolvePosition_crlf_invariant_witness :
    splitLines (crlfOf "ab\ncd".data) = splitLines "ab\ncd".data ∧
    resolvePosition (crlfOf "ab\ncd".data) ⟨"cd".data, 2, none⟩ 2 =
      resolvePosition "ab\ncd".data ⟨"cd".data, 2, none⟩ 2 :=
  ⟨(resolvePosition_crlf_invariant "ab\ncd".data (by decide)).1,
    (resolvePosition_crlf_invariant "ab\ncd".data (by decide)).2 ⟨"cd".data, 2, none⟩ 2⟩

/-- C3: when `findExactText` succeeds, interpreting the returned range's
start and end positions back into character offsets of the content and
slicing the content between them reproduces exactly the requested text. -/
theorem findExactText_roundtrip (content text : List Char) (r : DiskRange)
    (h : findExactText content text = .ok r) :
    ∃ so eo, positionToOffset content r.start = some so ∧
      positionToOffset content r.stop = some eo ∧
      (content.drop so).take (eo - so) = text := by
  obtain ⟨s, hocc, hr⟩ := findExactText_ok_shape h
  have hmem : s ∈ collectAux content text 0 content.length := by
    rw [← collectOccurrences, hocc]
    exact List.mem_singleton_self s
  obtain ⟨-, hslen, hpre⟩ := collectAux_sound content.length 0 hmem
  have hpre' : text <+: content.drop s := List.isPrefixOf_iff_prefix.mp hpre
  have htextlen : s + text.length ≤ content.length := by
    have := hpre'.length_le
    rw [List.length_drop] at this
    omega
  subst hr
  refine ⟨s, s + text.length, ?_, ?_, ?_⟩
  · exact positionToOffset_round (by omega)
  · exact positionToOffset_round htextlen
  · have htake : (content.drop s).take text.length = text :=
      (List.prefix_iff_eq_take.mp hpre').symm
    simpa [Nat.add_sub_cancel_left] using htake

theorem findExactText_roundtrip_witness :
    findExactText "ab\ncd".data "cd".data = .ok ⟨⟨1, 0⟩, ⟨1, 2⟩⟩ ∧
    (∃ so eo, positionToOffset "ab\ncd".data (⟨1, 0⟩ : ExactPosition) = some so ∧
      positionToOffset "ab\ncd".data (⟨1, 2⟩ : ExactPosition) = some eo ∧
      ("ab\ncd".data.drop so).take (eo - so) = "cd".data) :=
  ⟨by decide,
    findExactText_roundtrip "ab\ncd".data "cd".data ⟨⟨1, 0⟩, ⟨1, 2⟩⟩ (by decide)⟩

/-- C5: `findExactText` fails exactly when the overlap-permitting
whole-content occurrence count differs from one: zero occurrences yield the
"text not found" error echoing the first 50 characters of the text with an
ellipsis exactly when it is longer than 50 characters; two or more yield the
"appears N times" error with the exact count; and for non-empty text the
counted occurrences are precisely the spec-side overlap-permitting match
positions. -/
theorem findExactText_failure_taxonomy (content text : List Char) :
    ((collectOccurrences content text).length = 0 →
      findExactText content text = .error
        ("Text not found in file: \"".data ++ text.take 50
          ++ (if text.length > 50 then "...".data else []) ++ "\"".data))
    ∧ (2 ≤ (collectOccurrences content text).length →
      findExactText content text = .error
        ("Text appears ".data ++ (toString (collectOccurrences content text).length).data
          ++ " times in file. Please provide more context to uniquely identify the location.".data))
    ∧ ((∃ r, findExactText content text = .ok r) ↔
        (collectOccurrences content text).length = 1)
    ∧ (text ≠ [] → collectOccurrences content text = matchPositions text content 0) := by
  refine ⟨?_, ?_, ⟨?_, ?_⟩, fun hn => collectOccurrences_eq_matchPositions hn⟩
  · intro h0
    rw [findExactText, if_pos h0]
    rfl
  · intro h2
    rw [findExactText, if_neg (by omega), if_pos (by omega)]
    rfl
  · rintro ⟨r, hr⟩
    rw [findExactText] at hr
    split at hr
    · exact absurd hr (by simp)
    · split at hr
      · exact absurd hr (by simp)
      · omega
  · intro h1
    rw [findExactText, if_neg (by omega), if_neg (by omega)]
    exact ⟨_, rfl⟩

theorem findExactText_failure_taxonomy_witness :
    2 ≤ (collectOccurrences "foo foo foo".data "foo".data).length ∧
    findExactText "foo foo foo".data "foo".data = .error
      ("Text appears ".data
        ++ (toString (collectOccurrences "foo foo foo".data "foo".data).length).data
        ++ " times in file. Please provide more context to uniquely identify the location.".data) :=
  ⟨by decide,
    (findExactText_failure_taxonomy "foo foo foo".data "foo".data).2.1 (by decide)⟩

/-- C8: every `DiskRange` returned by `findExactText` is ordered — its start
does not exceed its end in (line, character) lexicographic order, because the
end is computed from the larger offset `start + length` and `offsetToPosition`
is monotone (lexicographically) in the offset. -/
theorem diskRange_start_le_end (content text : List Char) (r : DiskRange) :
    (findExactText content text = .ok r →
      lexLe r.start r.stop ∧
      ∃ s, collectOccurrences content text = [s] ∧
        r.start = offsetToPosition content s ∧
        r.stop = offsetToPosition content (s + text.length))
    ∧ (∀ o1 o2 : Nat, o1 ≤ o2 →
      lexLe (offsetToPosition content o1) (offsetToPosition content o2)) := by
  refine ⟨fun h => ?_, fun o1 o2 h12 => offsetToPosition_mono h12⟩
  obtain ⟨s, hocc, hr⟩ := findExactText_ok_shape h
  subst hr
  exact ⟨offsetToPosition_mono (by omega), s, hocc, rfl, rfl⟩

theorem diskRange_start_le_end_witness :
    findExactText "const foo = 42;".data "foo = 42".data = .ok ⟨⟨0, 6⟩, ⟨0, 14⟩⟩ ∧
    lexLe (⟨0, 6⟩ : ExactPosition) ⟨0, 14⟩ :=
  ⟨by decide,
    ((diskRange_start_le_end "const foo = 42;".data "foo = 42".data
      ⟨⟨0, 6⟩, ⟨0, 14⟩⟩).1 (by decide)).1⟩
